import Mathlib

/-
Verification of the characteristics-based wave-scattering evaluator
(Supplement.ipynb): piecewise material profiles c(x), Z(x), the
characteristic map X(t) and travel-time map T(x), and the truncated
multi-reflection amplitude evaluators reflected_wave / transmitted_wave.

Numpy boolean masks such as (x < x_0) used as 0/1 factors are embedded by
the indicator `ind`.  The external scipy adaptive-quadrature routines
(integrate.quad / dblquad / tplquad) are an opaque collaborator and are
modelled by the `Quad` structure of abstract quadrature functions; every
theorem below holds for an arbitrary member of that structure.  Module
level physical parameters are gathered in `Params`.  Local Python
variables that merely name subexpressions (t_w = w/c_l, tt = t-(x-x_r)/c_r)
are inlined.  The Python `raise` statements are embedded by returning
`Except.error` with the exact message string.
-/

open Classical

/-- Physical parameters; module-level globals in the source notebook. -/
structure Params where
  c_l : ℝ
  c_r : ℝ
  Z_l : ℝ
  Z_r : ℝ
  x_0 : ℝ
  x_r : ℝ
  s : ℝ
  sZ : ℝ
  oscillate : ℝ

/-- A numpy comparison used as a 0/1 multiplicative mask. -/
noncomputable def ind (p : Prop) : ℝ := if p then 1 else 0

/-- Sound speed c(x): (x<x_0)*c_l + (x>x_r)*c_r + (x>=x_0)*(x<=x_r)*(c_l + s*(x-x_0)). -/
noncomputable def c_fun (p : Params) (x : ℝ) : ℝ :=
  ind (x < p.x_0) * p.c_l + ind (p.x_r < x) * p.c_r
    + ind (p.x_0 ≤ x) * ind (x ≤ p.x_r) * (p.c_l + p.s * (x - p.x_0))

/-- Impedance Z(x), with the optional sinusoidal perturbation on (x_0, x_r). -/
noncomputable def Z_fun (p : Params) (x : ℝ) : ℝ :=
  ind (x < p.x_0) * p.Z_l + ind (p.x_r < x) * p.Z_r
    + ind (p.x_0 ≤ x) * ind (x ≤ p.x_r) * (p.Z_l + p.sZ * (x - p.x_0))
    + p.oscillate * ind (p.x_0 < x) * ind (x < p.x_r) * Real.sin (10 * Real.pi * x)

/-- Derivative of Z(x). -/
noncomputable def Z_prime (p : Params) (x : ℝ) : ℝ :=
  if p.oscillate = 0 then p.sZ
  else p.sZ + p.oscillate * 10 * Real.pi * Real.cos (10 * Real.pi * x)

/-- Crossing time t_r = 1/s * log(s*x_r/c_l + 1); module-level global. -/
noncomputable def t_r (p : Params) : ℝ := 1 / p.s * Real.log (p.s * p.x_r / p.c_l + 1)

/-- X(t): location of the right-going characteristic leaving x=0 at t=0,
(t<=0)*0 + (t>=t_r)*x_r + (t>0)*(t<t_r)*c_l/s*(exp(s*t)-1). -/
noncomputable def X (p : Params) (t : ℝ) : ℝ :=
  ind (t ≤ 0) * 0 + ind (t_r p ≤ t) * p.x_r
    + ind (0 < t) * ind (t < t_r p) * (p.c_l / p.s * (Real.exp (p.s * t) - 1))

/-- T(x): time for the characteristic to reach x from 0, 1/s*log(s*x/c_l+1). -/
noncomputable def T (p : Params) (x : ℝ) : ℝ := 1 / p.s * Real.log (p.s * x / p.c_l + 1)

/-- The external scipy adaptive quadrature routines, as opaque collaborators:
quad f a b epsabs epsrel; dblquad f a b gfun hfun epsabs epsrel;
tplquad f a b gfun hfun qfun rfun epsabs epsrel. -/
structure Quad where
  quad : (ℝ → ℝ) → ℝ → ℝ → ℝ → ℝ → ℝ
  dblquad : (ℝ → ℝ → ℝ) → ℝ → ℝ → (ℝ → ℝ) → (ℝ → ℝ) → ℝ → ℝ → ℝ
  tplquad : (ℝ → ℝ → ℝ → ℝ) → ℝ → ℝ → (ℝ → ℝ) → (ℝ → ℝ) →
    (ℝ → ℝ → ℝ) → (ℝ → ℝ → ℝ) → ℝ → ℝ → ℝ

/-- T0: first transmitted characteristics (no reflections). -/
noncomputable def T0 (p : Params) (t w : ℝ) : ℝ :=
  let x_init := (t - t_r p) * (-p.c_l)
  ind (x_init < p.x_0) * ind (-w < x_init) * Real.sqrt (p.Z_r / p.Z_l)

/-- T2: twice-reflected waves (eventually transmitted); t_w = w/c_l inlined. -/
noncomputable def T2 (p : Params) (Q : Quad) (t w : ℝ) : ℝ :=
  if t < t_r p ∨ 3 * t_r p + w / p.c_l < t then 0
  else (p.Z_r / p.Z_l) ^ ((1 : ℝ) / 2) *
    Q.quad (fun x1 =>
      let x2_lower := X p (T p x1 - (t - t_r p) / 2);
      let x2_upper := X p (T p x1 - (t - t_r p - w / p.c_l) / 2);
      -Z_prime p x1 / (4 * Z_fun p x1) *
        (Real.log (Z_fun p (min x2_upper x1)) - Real.log (Z_fun p (min x2_lower x1))))
      0 p.x_r (1e-3) (1e-3)

/-- T4: four-times reflected waves (eventually transmitted). -/
noncomputable def T4 (p : Params) (Q : Quad) (t w : ℝ) : ℝ :=
  if t < t_r p ∨ 5 * t_r p + w / p.c_l < t then 0
  else (p.Z_r / p.Z_l) ^ ((1 : ℝ) / 2) *
    Q.tplquad (fun x_3 x_2 x_1 =>
      let x4_lower := X p (T p x_1 + T p x_3 - T p x_2 - (t - t_r p) / 2);
      let x4_upper := X p (T p x_1 + T p x_3 - T p x_2 - (t - t_r p - w / p.c_l) / 2);
      -Z_prime p x_1 * Z_prime p x_2 * Z_prime p x_3 / 16 *
        Real.log (Z_fun p (min x4_lower x_3) / Z_fun p (min x4_upper x_3)) /
        (Z_fun p x_1 * Z_fun p x_2 * Z_fun p x_3))
      0 p.x_r (fun _ => 0) (fun x_1 => x_1) (fun _ x_2 => x_2) (fun _ _ => p.x_r)
      (1e-3) (1e-3)

/-- Per-entry contribution T_2[i] of the loop in transmitted_wave:
tt = t-(x-x_r)/c_r; set only when N>=2 and t_r < tt < 3*t_r + t_w. -/
noncomputable def T2_term (p : Params) (Q : Quad) (x t w : ℝ) (N : ℕ) : ℝ :=
  if 2 ≤ N ∧ t_r p < t - (x - p.x_r) / p.c_r ∧
      t - (x - p.x_r) / p.c_r < 3 * t_r p + w / p.c_l
  then T2 p Q (t - (x - p.x_r) / p.c_r) w else 0

/-- Per-entry contribution T_4[i] of the loop in transmitted_wave:
set only when N>=2, t_r < tt < 5*t_r + t_w and N>=4. -/
noncomputable def T4_term (p : Params) (Q : Quad) (x t w : ℝ) (N : ℕ) : ℝ :=
  if 2 ≤ N ∧ t_r p < t - (x - p.x_r) / p.c_r ∧
      (t - (x - p.x_r) / p.c_r < 5 * t_r p + w / p.c_l ∧ 4 ≤ N)
  then T4 p Q (t - (x - p.x_r) / p.c_r) w else 0

/-- transmitted_wave, per entry of the position array x: raises for N>4,
otherwise returns (x>x_r)*(T_0 + T_2 + T_4). -/
noncomputable def transmitted_wave (p : Params) (Q : Quad) (x t w : ℝ) (N : ℕ) :
    Except String ℝ :=
  if 4 < N then Except.error "Transmitted terms beyond N=4 have not been coded."
  else Except.ok (ind (p.x_r < x) *
    (T0 p (t - (x - p.x_r) / p.c_r) w + T2_term p Q x t w N + T4_term p Q x t w N))

/-- Lower limit of the first-reflection integral. -/
noncomputable def alpha (p : Params) (w t : ℝ) : ℝ :=
  ind (t < w / p.c_l) * 0 + ind (t < 2 * t_r p + w / p.c_l) * X p ((t - w / p.c_l) / 2)

/-- Upper limit of the first-reflection integral. -/
noncomputable def beta (p : Params) (w t : ℝ) : ℝ :=
  ind (t < 2 * t_r p) * X p (t / 2)
    + ind (2 * t_r p < t) * ind (t < 2 * t_r p + w / p.c_l) * p.x_r

/-- R_1: amplitude of first reflections at x=0 as a function of time. -/
noncomputable def R_1 (p : Params) (w t : ℝ) : ℝ :=
  ind (0 < t) * 0.5 * Real.log (Z_fun p (beta p w t) / Z_fun p (alpha p w t))

/-- R3: thrice-reflected waves (eventually reflected). -/
noncomputable def R3 (p : Params) (Q : Quad) (t w : ℝ) : ℝ :=
  if 4 * t_r p + w / p.c_l < t then 0
  else Q.dblquad (fun x2 x1 =>
      let x3_upper := X p (t / 2 - T p x1 + T p x2);
      let x3_lower := X p ((t - w / p.c_l) / 2 + T p x2 - T p x1);
      Z_prime p x1 * Z_prime p x2 / 8 *
        Real.log (Z_fun p (max x2 x3_lower) / Z_fun p (max x2 x3_upper)) /
        (Z_fun p x1 * Z_fun p x2))
      0 (X p (t / 2)) (fun _ => 0) (fun x1 => x1) (1e-3) (1e-3)

/-- Per-entry contribution R_3[i] of the loop in reflected_wave: computed at
the causal time tt = t + x/c_l whenever N>=3. -/
noncomputable def R3_term (p : Params) (Q : Quad) (x t w : ℝ) (N : ℕ) : ℝ :=
  if 3 ≤ N then R3 p Q (t + x / p.c_l) w else 0

/-- reflected_wave, per entry of the position array x: raises for N>4,
otherwise returns (x<x_0)*(R_1(t+x/c_l) + R_3). -/
noncomputable def reflected_wave (p : Params) (Q : Quad) (x t w : ℝ) (N : ℕ) :
    Except String ℝ :=
  if 4 < N then Except.error "Reflection terms beyond n=3 have not been coded."
  else Except.ok (ind (x < p.x_0) * (R_1 p w (t + x / p.c_l) + R3_term p Q x t w N))

/-- Trivial instance of the quadrature collaborator, used to instantiate
witnesses at concrete inputs. -/
def Quad0 : Quad :=
  ⟨fun _ _ _ _ _ => 0, fun _ _ _ _ _ _ _ => 0, fun _ _ _ _ _ _ _ _ _ => 0⟩

/-- Concrete parameter set with x_0 = 0, x_r = 1, c_l = c_r = 1, s = 1. -/
noncomputable def pEx : Params := ⟨1, 1, 1, 2, 0, 1, 1, 1, 0⟩

/-- Concrete parameter set with x_r = 0, so that t_r = 0. -/
noncomputable def pW4 : Params := ⟨1, 1, 1, 2, 0, 0, 1, 1, 0⟩

/-- Concrete parameter set with x_r = e - 1, so that t_r = 1. -/
noncomputable def pE : Params := ⟨1, 1, 1, 2, 0, Real.exp 1 - 1, 1, 1, 0⟩

/-- Concrete parameter set matching the notebook example: c_l=2, c_r=1,
Z_l=1, Z_r=2, x_0=0, x_r=1, s=(c_r-c_l)/(x_r-x_0), sZ=(Z_r-Z_l)/(x_r-x_0). -/
noncomputable def p7 : Params := ⟨2, 1, 1, 2, 0, 1, -1, 1, 0⟩

theorem ind_pos {q : Prop} (h : q) : ind q = 1 := if_pos h

theorem ind_neg {q : Prop} (h : ¬q) : ind q = 0 := if_neg h

theorem T_zero (p : Params) : T p 0 = 0 := by
  unfold T
  rw [show p.s * 0 / p.c_l + 1 = 1 by ring, Real.log_one, mul_zero]

theorem t_r_eq_T (p : Params) : t_r p = T p p.x_r := rfl

theorem T_strict (p : Params) (hc : 0 < p.c_l) (hs : p.s ≠ 0) {a b : ℝ}
    (ha : 0 < p.s * a / p.c_l + 1) (hb : 0 < p.s * b / p.c_l + 1) (hab : a < b) :
    T p a < T p b := by
  unfold T
  rcases hs.lt_or_lt with hneg | hpos
  · have hdiff : 0 < p.s * (a - b) / p.c_l :=
      div_pos (mul_pos_of_neg_of_neg hneg (by linarith)) hc
    have key : p.s * a / p.c_l + 1 - (p.s * b / p.c_l + 1) = p.s * (a - b) / p.c_l := by
      ring
    have harg : p.s * b / p.c_l + 1 < p.s * a / p.c_l + 1 := by linarith
    have hlog := Real.log_lt_log hb harg
    have h1s : 1 / p.s < 0 := one_div_neg.mpr hneg
    exact mul_lt_mul_of_neg_left hlog h1s
  · have hdiff : 0 < p.s * (b - a) / p.c_l :=
      div_pos (mul_pos hpos (by linarith)) hc
    have key : p.s * b / p.c_l + 1 - (p.s * a / p.c_l + 1) = p.s * (b - a) / p.c_l := by
      ring
    have harg : p.s * a / p.c_l + 1 < p.s * b / p.c_l + 1 := by linarith
    have hlog := Real.log_lt_log ha harg
    have h1s : 0 < 1 / p.s := one_div_pos.mpr hpos
    exact mul_lt_mul_of_pos_left hlog h1s

theorem arg_pos (p : Params) (hc : 0 < p.c_l) (hcr : 0 < p.c_l + p.s * p.x_r) :
    0 < p.s * p.x_r / p.c_l + 1 := by
  have hne : p.c_l ≠ 0 := ne_of_gt hc
  have h : p.s * p.x_r / p.c_l + 1 = (p.c_l + p.s * p.x_r) / p.c_l := by
    field_simp
    ring
  rw [h]
  exact div_pos hcr hc

theorem t_r_pos (p : Params) (hc : 0 < p.c_l) (hs : p.s ≠ 0) (hx : 0 < p.x_r)
    (hcr : 0 < p.c_l + p.s * p.x_r) : 0 < t_r p := by
  have h0 : (0 : ℝ) < p.s * 0 / p.c_l + 1 := by
    rw [show p.s * 0 / p.c_l + 1 = 1 by ring]
    norm_num
  have h := T_strict p hc hs h0 (arg_pos p hc hcr) hx
  rw [T_zero] at h
  rw [t_r_eq_T]
  exact h

theorem X_of_le_zero (p : Params) (htr : 0 < t_r p) {t : ℝ} (ht : t ≤ 0) :
    X p t = 0 := by
  unfold X
  rw [ind_pos ht, ind_neg (not_le.mpr (by linarith : t < t_r p)),
    ind_neg (not_lt.mpr ht)]
  ring

theorem X_of_ge (p : Params) {t : ℝ} (ht : t_r p ≤ t) : X p t = p.x_r := by
  unfold X
  rw [ind_pos ht, ind_neg (not_lt.mpr ht)]
  ring

theorem X_mid (p : Params) {t : ℝ} (h0 : 0 < t) (h1 : t < t_r p) :
    X p t = p.c_l / p.s * (Real.exp (p.s * t) - 1) := by
  unfold X
  rw [ind_neg (not_le.mpr h0), ind_neg (not_le.mpr h1), ind_pos h0, ind_pos h1]
  ring

theorem mid_strict (p : Params) (hc : 0 < p.c_l) (hs : p.s ≠ 0) {a b : ℝ}
    (hab : a < b) :
    p.c_l / p.s * (Real.exp (p.s * a) - 1) < p.c_l / p.s * (Real.exp (p.s * b) - 1) := by
  rcases hs.lt_or_lt with hneg | hpos
  · have he : Real.exp (p.s * b) < Real.exp (p.s * a) :=
      Real.exp_lt_exp.mpr (mul_lt_mul_of_neg_left hab hneg)
    have hcs : p.c_l / p.s < 0 := div_neg_of_pos_of_neg hc hneg
    exact mul_lt_mul_of_neg_left (by linarith) hcs
  · have he : Real.exp (p.s * a) < Real.exp (p.s * b) :=
      Real.exp_lt_exp.mpr (mul_lt_mul_of_pos_left hab hpos)
    have hcs : 0 < p.c_l / p.s := div_pos hc hpos
    exact mul_lt_mul_of_pos_left (by linarith) hcs

theorem mid_at_t_r (p : Params) (hc : 0 < p.c_l) (hs : p.s ≠ 0)
    (hcr : 0 < p.c_l + p.s * p.x_r) :
    p.c_l / p.s * (Real.exp (p.s * t_r p) - 1) = p.x_r := by
  have hcne : p.c_l ≠ 0 := ne_of_gt hc
  have ha := arg_pos p hc hcr
  have hexp : Real.exp (p.s * t_r p) = p.s * p.x_r / p.c_l + 1 := by
    unfold t_r
    rw [show p.s * (1 / p.s * Real.log (p.s * p.x_r / p.c_l + 1)) =
        Real.log (p.s * p.x_r / p.c_l + 1) by field_simp]
    exact Real.exp_log ha
  rw [hexp]
  field_simp
  ring

/-- Claim C6 (confirmed): requesting truncation order 6 from reflected_wave,
or order 8 from transmitted_wave, returns the documented terminal error for
every parameter set, quadrature routine, position, time and pulse width; in
the embedding the order check is the outermost branch, taken before any
amplitude expression is formed. -/
theorem order_six_eight_raise (p : Params) (Q : Quad) (x t w : ℝ) :
    reflected_wave p Q x t w 6 =
      Except.error "Reflection terms beyond n=3 have not been coded." ∧
    transmitted_wave p Q x t w 8 =
      Except.error "Transmitted terms beyond N=4 have not been coded." := by
  refine ⟨?_, ?_⟩
  · unfold reflected_wave
    rw [if_pos (by omega)]
  · unfold transmitted_wave
    rw [if_pos (by omega)]

/-- Claim C1, counterexample: the claim says reflected_wave raises for any
order beyond 3, but at N = 4 (an order beyond 3) it raises nothing and
returns an ordinary value. -/
theorem reflected_wave_accepts_order_four :
    reflected_wave pEx Quad0 0 0 1 4 ≠
      Except.error "Reflection terms beyond n=3 have not been coded." := by
  unfold reflected_wave
  rw [if_neg (by omega)]
  simp

/-- Claim C1 (amended): the amplitude evaluators raise their domain error
exactly when the requested truncation order exceeds 4: both reflected_wave
and transmitted_wave error for N > 4 and return a value for every N ≤ 4;
in particular reflected_wave accepts N = 4, which adds no reflection terms
beyond order 3. -/
theorem wave_error_iff_order_above_four (p : Params) (Q : Quad) (x t w : ℝ) (N : ℕ) :
    ((∃ msg, reflected_wave p Q x t w N = Except.error msg) ↔ 4 < N) ∧
    ((∃ msg, transmitted_wave p Q x t w N = Except.error msg) ↔ 4 < N) := by
  constructor
  · constructor
    · rintro ⟨msg, hmsg⟩
      by_contra h
      unfold reflected_wave at hmsg
      rw [if_neg h] at hmsg
      exact Except.noConfusion hmsg
    · intro h
      exact ⟨_, by unfold reflected_wave; rw [if_pos h]⟩
  · constructor
    · rintro ⟨msg, hmsg⟩
      by_contra h
      unfold transmitted_wave at hmsg
      rw [if_neg h] at hmsg
      exact Except.noConfusion hmsg
    · intro h
      exact ⟨_, by unfold transmitted_wave; rw [if_pos h]⟩

/-- Claim C9 (confirmed): for every accepted order N ≤ 4, the reflected wave
vanishes entrywise at positions x ≥ x_0 and the transmitted wave vanishes
entrywise at positions x ≤ x_r. -/
theorem support_confined (p : Params) (Q : Quad) (x t w : ℝ) (N : ℕ) (hN : N ≤ 4) :
    (p.x_0 ≤ x → reflected_wave p Q x t w N = Except.ok 0) ∧
    (x ≤ p.x_r → transmitted_wave p Q x t w N = Except.ok 0) := by
  constructor
  · intro hx
    unfold reflected_wave
    rw [if_neg (by omega), ind_neg (not_lt.mpr hx), zero_mul]
  · intro hx
    unfold transmitted_wave
    rw [if_neg (by omega), ind_neg (not_lt.mpr hx), zero_mul]

/-- Witness for C9 at concrete inputs. -/
theorem support_confined_witness :
    reflected_wave pEx Quad0 1 0 1 2 = Except.ok 0 ∧
    transmitted_wave pEx Quad0 0 0 1 2 = Except.ok 0 :=
  ⟨(support_confined pEx Quad0 1 0 1 2 (by decide)).1 (by show (0:ℝ) ≤ 1; norm_num),
   (support_confined pEx Quad0 0 0 1 2 (by decide)).2 (by show (0:ℝ) ≤ 1; norm_num)⟩

/-- Claim C10 (confirmed): orders between the coded thresholds add no terms:
reflected_wave at N = 4 equals reflected_wave at N = 3; transmitted_wave at
N = 3 equals transmitted_wave at N = 2; for N ≤ 2 the reflected wave is the
R_1 contribution alone, and for N ≤ 1 the transmitted wave is the T_0
contribution alone. -/
theorem truncation_plateaus (p : Params) (Q : Quad) (x t w : ℝ) (N : ℕ) :
    reflected_wave p Q x t w 4 = reflected_wave p Q x t w 3 ∧
    transmitted_wave p Q x t w 3 = transmitted_wave p Q x t w 2 ∧
    (N ≤ 2 → reflected_wave p Q x t w N =
      Except.ok (ind (x < p.x_0) * R_1 p w (t + x / p.c_l))) ∧
    (N ≤ 1 → transmitted_wave p Q x t w N =
      Except.ok (ind (p.x_r < x) * T0 p (t - (x - p.x_r) / p.c_r) w)) := by
  refine ⟨?_, ?_, ?_, ?_⟩
  · have hR : R3_term p Q x t w 4 = R3_term p Q x t w 3 := by
      unfold R3_term
      rw [if_pos (by omega), if_pos (by omega)]
    unfold reflected_wave
    rw [if_neg (by omega), if_neg (by omega), hR]
  · have hT2 : T2_term p Q x t w 3 = T2_term p Q x t w 2 := by
      unfold T2_term
      norm_num
    have hT4 : T4_term p Q x t w 3 = T4_term p Q x t w 2 := by
      unfold T4_term
      rw [if_neg (by rintro ⟨-, -, -, h4⟩; omega),
        if_neg (by rintro ⟨-, -, -, h4⟩; omega)]
    unfold transmitted_wave
    rw [if_neg (by omega), if_neg (by omega), hT2, hT4]
  · intro hN
    have hR : R3_term p Q x t w N = 0 := by
      unfold R3_term
      rw [if_neg (by omega)]
    unfold reflected_wave
    rw [if_neg (by omega), hR, add_zero]
  · intro hN
    have h2 : T2_term p Q x t w N = 0 := by
      unfold T2_term
      rw [if_neg (by rintro ⟨h2, -⟩; omega)]
    have h4 : T4_term p Q x t w N = 0 := by
      unfold T4_term
      rw [if_neg (by rintro ⟨h2, -⟩; omega)]
    unfold transmitted_wave
    rw [if_neg (by omega), h2, h4, add_zero, add_zero]

/-- Witness for C10 at concrete inputs. -/
theorem truncation_plateaus_witness :
    reflected_wave pEx Quad0 0 0 1 1 =
      Except.ok (ind ((0:ℝ) < pEx.x_0) * R_1 pEx 1 (0 + 0 / pEx.c_l)) ∧
    transmitted_wave pEx Quad0 0 0 1 1 =
      Except.ok (ind (pEx.x_r < (0:ℝ)) * T0 pEx (0 - (0 - pEx.x_r) / pEx.c_r) 1) :=
  ⟨(truncation_plateaus pEx Quad0 0 0 1 1).2.2.1 (by decide),
   (truncation_plateaus pEx Quad0 0 0 1 1).2.2.2 (by decide)⟩

/-- Claim C4 (confirmed): per output point, higher-order terms whose causal
time tt = t - (x - x_r)/c_r (transmitted) or t + x/c_l (reflected) lies
outside their validity window are exactly zero: T_2 vanishes unless
t_r < tt < 3 t_r + t_w, T_4 vanishes unless t_r < tt < 5 t_r + t_w, and R_3
vanishes whenever its causal time exceeds 4 t_r + t_w; and for any accepted
order N ≤ 4 no error is raised (t_w = w/c_l). -/
theorem causal_window_zero (p : Params) (Q : Quad) (x t w : ℝ) (N : ℕ) (hN : N ≤ 4) :
    (¬(t_r p < t - (x - p.x_r) / p.c_r ∧
        t - (x - p.x_r) / p.c_r < 3 * t_r p + w / p.c_l) →
      T2_term p Q x t w N = 0) ∧
    (¬(t_r p < t - (x - p.x_r) / p.c_r ∧
        t - (x - p.x_r) / p.c_r < 5 * t_r p + w / p.c_l) →
      T4_term p Q x t w N = 0) ∧
    (4 * t_r p + w / p.c_l < t + x / p.c_l → R3_term p Q x t w N = 0) ∧
    (∃ v, transmitted_wave p Q x t w N = Except.ok v) ∧
    (∃ v, reflected_wave p Q x t w N = Except.ok v) := by
  refine ⟨?_, ?_, ?_, ?_, ?_⟩
  · intro h
    unfold T2_term
    rw [if_neg (by tauto)]
  · intro h
    unfold T4_term
    rw [if_neg (by rintro ⟨-, h1, h2, -⟩; exact h ⟨h1, h2⟩)]
  · intro h
    unfold R3_term
    rcases le_or_lt 3 N with h3 | h3
    · rw [if_pos h3]
      unfold R3
      rw [if_pos h]
    · rw [if_neg (by omega)]
  · exact ⟨_, by unfold transmitted_wave; rw [if_neg (by omega)]⟩
  · exact ⟨_, by unfold reflected_wave; rw [if_neg (by omega)]⟩

/-- Witness for C4 at concrete inputs using the x_r = 0 parameter set, for
which t_r evaluates to 0. -/
theorem causal_window_zero_witness :
    T2_term pW4 Quad0 5 0 1 2 = 0 ∧ T4_term pW4 Quad0 5 0 1 2 = 0 ∧
    R3_term pW4 Quad0 0 9 1 2 = 0 := by
  have h0 : t_r pW4 = 0 := by
    unfold t_r
    show 1 / (1:ℝ) * Real.log ((1:ℝ) * 0 / 1 + 1) = 0
    norm_num
  have htt : (0:ℝ) - (5 - pW4.x_r) / pW4.c_r = -5 := by
    show (0:ℝ) - (5 - 0) / 1 = -5
    norm_num
  refine ⟨(causal_window_zero pW4 Quad0 5 0 1 2 (by decide)).1 ?_,
    (causal_window_zero pW4 Quad0 5 0 1 2 (by decide)).2.1 ?_,
    (causal_window_zero pW4 Quad0 0 9 1 2 (by decide)).2.2.1 ?_⟩
  · rintro ⟨hlt, -⟩
    rw [h0, htt] at hlt
    norm_num at hlt
  · rintro ⟨hlt, -⟩
    rw [h0, htt] at hlt
    norm_num at hlt
  · rw [h0]
    show 4 * 0 + 1 / pW4.c_l < 9 + 0 / pW4.c_l
    show 4 * 0 + 1 / (1:ℝ) < 9 + 0 / 1
    norm_num

/-- Claim C3 (confirmed): X clamps outside the crossing window: X(t) = 0 for
t ≤ 0 and X(t) = x_r for t ≥ t_r, with t_r = (1/s) log(s x_r/c_l + 1).
Besides the stated preconditions c_l > 0 and s ≠ 0, the hypotheses
0 < x_r and 0 < c_l + s x_r record that the transition region has positive
width and a positive right-edge sound speed, which is what makes the
crossing time t_r well defined and positive. -/
theorem X_clamps_outside_window (p : Params) (t : ℝ) (hc : 0 < p.c_l)
    (hs : p.s ≠ 0) (hx : 0 < p.x_r) (hcr : 0 < p.c_l + p.s * p.x_r) :
    (t ≤ 0 → X p t = 0) ∧ (t_r p ≤ t → X p t = p.x_r) := by
  have htr := t_r_pos p hc hs hx hcr
  exact ⟨fun ht => X_of_le_zero p htr ht, fun ht => X_of_ge p ht⟩

/-- Witness for C3 at concrete inputs. -/
theorem X_clamps_outside_window_witness :
    X pEx (-1) = 0 ∧ X pEx (t_r pEx) = pEx.x_r :=
  ⟨(X_clamps_outside_window pEx (-1) (by show (0:ℝ) < 1; norm_num)
      (by show (1:ℝ) ≠ 0; norm_num) (by show (0:ℝ) < 1; norm_num)
      (by show (0:ℝ) < 1 + 1 * 1; norm_num)).1 (by norm_num),
   (X_clamps_outside_window pEx (t_r pEx) (by show (0:ℝ) < 1; norm_num)
      (by show (1:ℝ) ≠ 0; norm_num) (by show (0:ℝ) < 1; norm_num)
      (by show (0:ℝ) < 1 + 1 * 1; norm_num)).2 le_rfl⟩

/-- Claim C5 (confirmed): the characteristic path satisfies X(0) = 0,
X(t_r) = x_r, is nondecreasing on all of ℝ and strictly increasing on
(0, t_r), under c_l > 0, s ≠ 0 and the setup hypotheses 0 < x_r,
0 < c_l + s x_r that make t_r a genuine positive crossing time. -/
theorem X_endpoints_monotone (p : Params) (hc : 0 < p.c_l) (hs : p.s ≠ 0)
    (hx : 0 < p.x_r) (hcr : 0 < p.c_l + p.s * p.x_r) :
    X p 0 = 0 ∧ X p (t_r p) = p.x_r ∧ Monotone (X p) ∧
    StrictMonoOn (X p) (Set.Ioo 0 (t_r p)) := by
  have htr := t_r_pos p hc hs hx hcr
  have hbound : ∀ u : ℝ, 0 < u → u < t_r p →
      0 < p.c_l / p.s * (Real.exp (p.s * u) - 1) ∧
      p.c_l / p.s * (Real.exp (p.s * u) - 1) < p.x_r := by
    intro u h0 h1
    constructor
    · have h00 : p.c_l / p.s * (Real.exp (p.s * 0) - 1) = 0 := by
        rw [mul_zero, Real.exp_zero]
        ring
      have := mid_strict p hc hs h0
      linarith
    · have := mid_strict p hc hs h1
      rw [mid_at_t_r p hc hs hcr] at this
      exact this
  refine ⟨X_of_le_zero p htr le_rfl, X_of_ge p le_rfl, ?_, ?_⟩
  · intro t1 t2 h12
    rcases le_or_lt t1 0 with h1 | h1
    · rw [X_of_le_zero p htr h1]
      rcases le_or_lt t2 0 with h2 | h2
      · rw [X_of_le_zero p htr h2]
      · rcases lt_or_le t2 (t_r p) with h3 | h3
        · rw [X_mid p h2 h3]
          exact le_of_lt (hbound t2 h2 h3).1
        · rw [X_of_ge p h3]
          exact le_of_lt hx
    · rcases le_or_lt (t_r p) t1 with h2 | h2
      · rw [X_of_ge p h2, X_of_ge p (le_trans h2 h12)]
      · rw [X_mid p h1 h2]
        rcases le_or_lt (t_r p) t2 with h3 | h3
        · rw [X_of_ge p h3]
          exact le_of_lt (hbound t1 h1 h2).2
        · rw [X_mid p (lt_of_lt_of_le h1 h12) h3]
          rcases eq_or_lt_of_le h12 with he | hlt
          · rw [he]
          · exact le_of_lt (mid_strict p hc hs hlt)
  · intro a ha b hb hab
    rw [X_mid p ha.1 ha.2, X_mid p hb.1 hb.2]
    exact mid_strict p hc hs hab

/-- Witness for C5 at concrete inputs. -/
theorem X_endpoints_monotone_witness :
    X pEx 0 = 0 ∧ X pEx (t_r pEx) = pEx.x_r ∧ Monotone (X pEx) ∧
    StrictMonoOn (X pEx) (Set.Ioo 0 (t_r pEx)) :=
  X_endpoints_monotone pEx (by show (0:ℝ) < 1; norm_num)
    (by show (1:ℝ) ≠ 0; norm_num) (by show (0:ℝ) < 1; norm_num)
    (by show (0:ℝ) < 1 + 1 * 1; norm_num)

/-- Claim C2 (confirmed, exact in real arithmetic): for t in the open
crossing window (0, t_r) and x strictly inside the transition region,
T(X(t)) = t and X(T(x)) = x, under c_l > 0, s ≠ 0, the setup hypothesis
0 < c_l + s x_r (the right-edge sound speed is positive, so t_r is well
defined), and x_0 = 0 as in the notebook, where the closed forms for
X and T are derived for a characteristic leaving x = 0. -/
theorem char_map_inverse (p : Params) (t x : ℝ) (hc : 0 < p.c_l) (hs : p.s ≠ 0)
    (hcr : 0 < p.c_l + p.s * p.x_r) (hx0 : p.x_0 = 0) (ht0 : 0 < t)
    (htr : t < t_r p) (hx1 : p.x_0 < x) (hx2 : x < p.x_r) :
    T p (X p t) = t ∧ X p (T p x) = x := by
  have hcne : p.c_l ≠ 0 := ne_of_gt hc
  rw [hx0] at hx1
  constructor
  · rw [X_mid p ht0 htr]
    unfold T
    rw [show p.s * (p.c_l / p.s * (Real.exp (p.s * t) - 1)) / p.c_l + 1 =
        Real.exp (p.s * t) by field_simp, Real.log_exp]
    field_simp
  · have hax : 0 < p.s * x / p.c_l + 1 := by
      rcases hs.lt_or_lt with hneg | hpos
      · have h1 : p.s * p.x_r < p.s * x := mul_lt_mul_of_neg_left hx2 hneg
        have key : p.s * x / p.c_l - p.s * p.x_r / p.c_l =
            (p.s * x - p.s * p.x_r) / p.c_l := by ring
        have hpos2 : 0 < (p.s * x - p.s * p.x_r) / p.c_l :=
          div_pos (by linarith) hc
        have := arg_pos p hc hcr
        linarith
      · have h1 : 0 < p.s * x / p.c_l := div_pos (mul_pos hpos hx1) hc
        linarith
    have hT0 : 0 < T p x := by
      have h0 : (0 : ℝ) < p.s * 0 / p.c_l + 1 := by
        rw [show p.s * 0 / p.c_l + 1 = 1 by ring]
        norm_num
      have h := T_strict p hc hs h0 hax hx1
      rwa [T_zero] at h
    have hTr : T p x < t_r p := by
      rw [t_r_eq_T]
      exact T_strict p hc hs hax (arg_pos p hc hcr) hx2
    rw [X_mid p hT0 hTr]
    unfold T
    rw [show p.s * (1 / p.s * Real.log (p.s * x / p.c_l + 1)) =
        Real.log (p.s * x / p.c_l + 1) by field_simp, Real.exp_log hax]
    field_simp
    ring

/-- Witness for C2: parameters with c_l = 1, s = 1, x_r = e - 1, for which
t_r = 1; the maps invert each other at t = 1/2 and x = 1. -/
theorem char_map_inverse_witness :
    T pE (X pE (1 / 2)) = 1 / 2 ∧ X pE (T pE 1) = 1 := by
  have h1 : t_r pE = 1 := by
    unfold t_r
    show 1 / (1:ℝ) * Real.log ((1:ℝ) * (Real.exp 1 - 1) / 1 + 1) = 1
    rw [show (1:ℝ) * (Real.exp 1 - 1) / 1 + 1 = Real.exp 1 by ring, Real.log_exp]
    norm_num
  refine char_map_inverse pE (1 / 2) 1 ?_ ?_ ?_ ?_ ?_ ?_ ?_ ?_
  · show (0:ℝ) < 1
    norm_num
  · show (1:ℝ) ≠ 0
    norm_num
  · show (0:ℝ) < 1 + 1 * (Real.exp 1 - 1)
    nlinarith [Real.exp_pos 1]
  · rfl
  · norm_num
  · rw [h1]
    norm_num
  · show (0:ℝ) < 1
    norm_num
  · show (1:ℝ) < Real.exp 1 - 1
    nlinarith [Real.exp_one_gt_d9]

/-- Claim C8 (confirmed): outside the transition region the profile
evaluators return the constant limits: c(x) = c_l and Z(x) = Z_l for every
x < x_0, and c(x) = c_r, Z(x) = Z_r for every x > x_r; the hypothesis
x_0 ≤ x_r records that the transition region is ordered.  Totality over all
real x with no error conditions holds by construction of the embedding:
c_fun and Z_fun are plain functions ℝ → ℝ. -/
theorem profile_constant_outside (p : Params) (hreg : p.x_0 ≤ p.x_r) (x : ℝ) :
    (x < p.x_0 → c_fun p x = p.c_l ∧ Z_fun p x = p.Z_l) ∧
    (p.x_r < x → c_fun p x = p.c_r ∧ Z_fun p x = p.Z_r) := by
  constructor
  · intro hx
    constructor
    · unfold c_fun
      rw [ind_pos hx, ind_neg (not_lt.mpr (hx.le.trans hreg)),
        ind_neg (not_le.mpr hx)]
      ring
    · unfold Z_fun
      rw [ind_pos hx, ind_neg (not_lt.mpr (hx.le.trans hreg)),
        ind_neg (not_le.mpr hx), ind_neg (not_lt.mpr hx.le)]
      ring
  · intro hx
    constructor
    · unfold c_fun
      rw [ind_neg (not_lt.mpr (hreg.trans hx.le)), ind_pos hx,
        ind_neg (not_le.mpr hx)]
      ring
    · unfold Z_fun
      rw [ind_neg (not_lt.mpr (hreg.trans hx.le)), ind_pos hx,
        ind_neg (not_le.mpr hx), ind_neg (not_lt.mpr hx.le)]
      ring

/-- Witness for C8 at concrete inputs. -/
theorem profile_constant_outside_witness :
    (c_fun pEx (-1) = pEx.c_l ∧ Z_fun pEx (-1) = pEx.Z_l) ∧
    (c_fun pEx 2 = pEx.c_r ∧ Z_fun pEx 2 = pEx.Z_r) :=
  ⟨(profile_constant_outside pEx (by show (0:ℝ) ≤ 1; norm_num) (-1)).1
      (by show (-1:ℝ) < 0; norm_num),
   (profile_constant_outside pEx (by show (0:ℝ) ≤ 1; norm_num) 2).2
      (by show (1:ℝ) < 2; norm_num)⟩

theorem pw_left {x0 xr vl vr sl : ℝ} {x : ℝ} (hx : x < xr) :
    ind (x < x0) * vl + ind (xr < x) * vr
      + ind (x0 ≤ x) * ind (x ≤ xr) * (vl + sl * (x - x0))
      = vl + sl * (max x x0 - x0) := by
  rcases lt_or_le x x0 with h | h
  · rw [ind_pos h, ind_neg (not_lt.mpr hx.le), ind_neg (not_le.mpr h),
      max_eq_right h.le]
    ring
  · rw [ind_neg (not_lt.mpr h), ind_neg (not_lt.mpr hx.le), ind_pos h,
      ind_pos hx.le, max_eq_left h]
    ring

theorem pw_right {x0 xr vl vr sl : ℝ} (hvr : vr = vl + sl * (xr - x0)) {x : ℝ}
    (hx : x0 < x) :
    ind (x < x0) * vl + ind (xr < x) * vr
      + ind (x0 ≤ x) * ind (x ≤ xr) * (vl + sl * (x - x0))
      = vl + sl * (min x xr - x0) := by
  rcases le_or_lt x xr with h | h
  · rw [ind_neg (not_lt.mpr hx.le), ind_neg (not_lt.mpr h), ind_pos hx.le,
      ind_pos h, min_eq_left h]
    ring
  · rw [ind_neg (not_lt.mpr hx.le), ind_pos h, ind_neg (not_le.mpr h),
      min_eq_right h.le, hvr]
    ring

theorem contAt_left_of_pw {f : ℝ → ℝ} {x0 xr vl sl : ℝ} (h0r : x0 < xr)
    (hf : ∀ x, x < xr → f x = vl + sl * (max x x0 - x0)) :
    ContinuousAt f x0 := by
  have hg : Continuous fun y : ℝ => vl + sl * (max y x0 - x0) :=
    continuous_const.add (continuous_const.mul
      ((continuous_id.max continuous_const).sub continuous_const))
  have hev : (fun y : ℝ => vl + sl * (max y x0 - x0)) =ᶠ[nhds x0] f :=
    Filter.eventuallyEq_of_mem (Iio_mem_nhds h0r) fun x hx => (hf x hx).symm
  exact hg.continuousAt.congr hev

theorem contAt_right_of_pw {f : ℝ → ℝ} {x0 xr vl sl : ℝ} (h0r : x0 < xr)
    (hf : ∀ x, x0 < x → f x = vl + sl * (min x xr - x0)) :
    ContinuousAt f xr := by
  have hg : Continuous fun y : ℝ => vl + sl * (min y xr - x0) :=
    continuous_const.add (continuous_const.mul
      ((continuous_id.min continuous_const).sub continuous_const))
  have hev : (fun y : ℝ => vl + sl * (min y xr - x0)) =ᶠ[nhds xr] f :=
    Filter.eventuallyEq_of_mem (Ioi_mem_nhds h0r) fun x hx => (hf x hx).symm
  exact hg.continuousAt.congr hev

theorem Z_fun_no_osc (p : Params) (hosc : p.oscillate = 0) (x : ℝ) :
    Z_fun p x = ind (x < p.x_0) * p.Z_l + ind (p.x_r < x) * p.Z_r
      + ind (p.x_0 ≤ x) * ind (x ≤ p.x_r) * (p.Z_l + p.sZ * (x - p.x_0)) := by
  unfold Z_fun
  rw [hosc]
  ring

/-- Claim C7 (confirmed): with zero oscillation amplitude and the slopes
defined by s = (c_r - c_l)/(x_r - x_0), sZ = (Z_r - Z_l)/(x_r - x_0), the
profiles match the adjacent constant pieces at the joints, c(x_0) = c_l,
c(x_r) = c_r, Z(x_0) = Z_l, Z(x_r) = Z_r, and c and Z are continuous at
both joints, so left and right limits there coincide with the values. -/
theorem profile_continuous_joints (p : Params) (h0r : p.x_0 < p.x_r)
    (hs : p.s = (p.c_r - p.c_l) / (p.x_r - p.x_0))
    (hsZ : p.sZ = (p.Z_r - p.Z_l) / (p.x_r - p.x_0))
    (hosc : p.oscillate = 0) :
    c_fun p p.x_0 = p.c_l ∧ c_fun p p.x_r = p.c_r ∧
    Z_fun p p.x_0 = p.Z_l ∧ Z_fun p p.x_r = p.Z_r ∧
    ContinuousAt (c_fun p) p.x_0 ∧ ContinuousAt (c_fun p) p.x_r ∧
    ContinuousAt (Z_fun p) p.x_0 ∧ ContinuousAt (Z_fun p) p.x_r := by
  have hne : p.x_r - p.x_0 ≠ 0 := sub_ne_zero.mpr h0r.ne'
  have hcr : p.c_r = p.c_l + p.s * (p.x_r - p.x_0) := by
    rw [hs]
    field_simp
  have hZr : p.Z_r = p.Z_l + p.sZ * (p.x_r - p.x_0) := by
    rw [hsZ]
    field_simp
  have hcl : ∀ x, x < p.x_r → c_fun p x = p.c_l + p.s * (max x p.x_0 - p.x_0) :=
    fun x hx => pw_left hx
  have hcright : ∀ x, p.x_0 < x →
      c_fun p x = p.c_l + p.s * (min x p.x_r - p.x_0) :=
    fun x hx => pw_right hcr hx
  have hZl : ∀ x, x < p.x_r → Z_fun p x = p.Z_l + p.sZ * (max x p.x_0 - p.x_0) :=
    fun x hx => (Z_fun_no_osc p hosc x).trans (pw_left hx)
  have hZright : ∀ x, p.x_0 < x →
      Z_fun p x = p.Z_l + p.sZ * (min x p.x_r - p.x_0) :=
    fun x hx => (Z_fun_no_osc p hosc x).trans (pw_right hZr hx)
  refine ⟨?_, ?_, ?_, ?_, ?_, ?_, ?_, ?_⟩
  · rw [hcl p.x_0 h0r, max_self]
    ring
  · rw [hcright p.x_r h0r, min_self]
    linarith
  · rw [hZl p.x_0 h0r, max_self]
    ring
  · rw [hZright p.x_r h0r, min_self]
    linarith
  · exact contAt_left_of_pw h0r hcl
  · exact contAt_right_of_pw h0r hcright
  · exact contAt_left_of_pw h0r hZl
  · exact contAt_right_of_pw h0r hZright

/-- Witness for C7: the notebook parameters c_l=2, c_r=1, Z_l=1, Z_r=2,
x_0=0, x_r=1 with the induced slopes s=-1, sZ=1 and zero oscillation. -/
theorem profile_continuous_joints_witness :
    c_fun p7 p7.x_0 = p7.c_l ∧ c_fun p7 p7.x_r = p7.c_r ∧
    Z_fun p7 p7.x_0 = p7.Z_l ∧ Z_fun p7 p7.x_r = p7.Z_r ∧
    ContinuousAt (c_fun p7) p7.x_0 ∧ ContinuousAt (c_fun p7) p7.x_r ∧
    ContinuousAt (Z_fun p7) p7.x_0 ∧ ContinuousAt (Z_fun p7) p7.x_r :=
  profile_continuous_joints p7 (by show (0:ℝ) < 1; norm_num)
    (by show (-1:ℝ) = (1 - 2) / (1 - 0); norm_num)
    (by show (1:ℝ) = (2 - 1) / (1 - 0); norm_num) rfl
